import Mathlib

/-!
Verification of `scripts/ranking_system_concept.py`: a two-layer
competitive-ranking simulator with a hidden Bradley-Terry estimator and a
visible trophy-score layer.  The numeric state of the Python script
(float64 vectors) is embedded as exact real numbers; the external scipy
function `norm.ppf` (the inverse standard normal CDF) enters the embedding
as a function parameter `ppf`, of which the development uses only strict
monotonicity on (0,1).
-/

namespace RankingConcept

/-- Configuration constant `K_BT = 0.05` (Bradley-Terry step size). -/
def K_BT : ℝ := 0.05

/-- Configuration constant `WIN_GAIN = 35`. -/
def WIN_GAIN : ℝ := 35

/-- Configuration constant `LOSS_PENALTY = 25`. -/
def LOSS_PENALTY : ℝ := 25

/-- Configuration constant `TARGET_MEAN = 1500`. -/
def TARGET_MEAN : ℝ := 1500

/-- Configuration constant `TARGET_STD = 430`. -/
def TARGET_STD : ℝ := 430

/-- Configuration constant `FADE_WIDTH = 300`. -/
def FADE_WIDTH : ℝ := 300

/-- Configuration constant `SIGMA_MATCH = 0.4` (matchmaking bandwidth). -/
def SIGMA_MATCH : ℝ := 0.4

/-- The probability expression of `bt_update`:
`p = np.exp(a) / (np.exp(a) + np.exp(b))` (raw exponentials, exactly as the
source writes it). -/
noncomputable def bt_p (a b : ℝ) : ℝ :=
  Real.exp a / (Real.exp a + Real.exp b)

/-- Function `bt_update(a, b, outcome, K)` from the source:
`p = exp(a)/(exp(a)+exp(b))`; `delta = K * (outcome - p)`;
returns `(a + delta, b - delta)`. -/
noncomputable def bt_update (a b outcome K : ℝ) : ℝ × ℝ :=
  let p := Real.exp a / (Real.exp a + Real.exp b)
  let delta := K * (outcome - p)
  (a + delta, b - delta)

/-- Modelled from the spec: the numerically stable logistic form the spec
mandates for `p_est`, namely `1 / (1 + exp(-(s_w - s_l)))`, written here as
`1 / (1 + exp(s_l - s_w))`.  The source does NOT use this form; this
definition exists to compare the source's raw-exponential formula with it. -/
noncomputable def stable_logistic (sw sl : ℝ) : ℝ :=
  1 / (1 + Real.exp (sl - sw))

/-- Modelled from the spec: the estimator update as the spec's words state
it for a recorded winner `sw` and loser `sl`:
`p_est = exp(s_w)/(exp(s_w)+exp(s_l))`, `delta = step_size * (1 - p_est)`,
winner gets `+delta`, loser gets `-delta`. -/
noncomputable def bt_update_spec (sw sl step : ℝ) : ℝ × ℝ :=
  (sw + step * (1 - bt_p sw sl), sl - step * (1 - bt_p sw sl))

/-- Clip: `np.clip(x, lo, hi) = min(max(x, lo), hi)`. -/
noncomputable def np_clip (x lo hi : ℝ) : ℝ :=
  min (max x lo) hi

/-- The `scale` of `trophy_step`: `np.clip(gap / FADE_WIDTH, 0, 1)` with
`gap = target - trophy`.  `fw` stands for the global `FADE_WIDTH`. -/
noncomputable def trophy_scale (fw target trophy : ℝ) : ℝ :=
  np_clip ((target - trophy) / fw) 0 1

/-- Function `trophy_step(player, win)` from the source, with the globals
`WIN_GAIN`, `LOSS_PENALTY`, `FADE_WIDTH` passed as the parameters `wg`,
`lp`, `fw`, and the array reads `targets[player]`, `trophies[player]`
passed as `target`, `trophy`.  Computes `gap = target - trophy`,
`scale = np.clip(gap / fw, 0, 1)`; adds `wg * scale` on a win, subtracts
`lp * scale` on a loss; ends with `trophies[player] = max(0, ...)`. -/
noncomputable def trophy_step (wg lp fw target trophy : ℝ) (win : Bool) : ℝ :=
  let scale := trophy_scale fw target trophy
  let updated := if win then trophy + wg * scale else trophy - lp * scale
  max 0 updated

/-- Modelled from the spec: the trophy step exactly as the spec's words
state it — `gap = target - current_trophy`,
`scale = clamp(gap / fade_width, 0, 1)`; if won add `win_gain * scale`,
otherwise subtract `loss_penalty * scale`; clamp the result at a zero
floor.  Here `clamp(x, 0, 1)` is written `max 0 (min x 1)`. -/
noncomputable def trophy_step_spec (wg lp fw target trophy : ℝ) (won : Bool) : ℝ :=
  let gap := target - trophy
  let scale := max 0 (min (gap / fw) 1)
  max 0 (if won then trophy + wg * scale else trophy - lp * scale)

/-- The set of indices whose strength is strictly below participant `i`'s,
over the whole population `Finset.range theta.length`. -/
noncomputable def ltSet (theta : List ℝ) (i : ℕ) : Finset ℕ :=
  (Finset.range theta.length).filter (fun k => theta.getD k 0 < theta.getD i 0)

/-- The set of indices before `i` whose strength exactly ties `i`'s. -/
noncomputable def tieSet (theta : List ℝ) (i : ℕ) : Finset ℕ :=
  (Finset.range i).filter (fun k => theta.getD k 0 = theta.getD i 0)

/-- Ranks `ranks = np.argsort(np.argsort(theta))` from `target_trophies`,
determinized with an index-order split among exact ties: the rank of index
`i` is the number of strictly smaller entries plus the number of earlier
(lower-index) entries exactly equal to it, so ranks are a permutation of
`0 .. N-1` sorted ascending by strength.  The source's default `np.argsort`
is not stable, so its order among exact ties is unspecified; this
determinization is one of the rank vectors it can produce, and
tie-order-sensitive statements quantify over `IsArgsortRank` instead of
relying on it. -/
noncomputable def rankOf (theta : List ℝ) (i : ℕ) : ℕ :=
  (ltSet theta i).card + (tieSet theta i).card

/-- Position `p = (ranks + 1) / (len(theta) + 1)` from `target_trophies`, at
index `i`. -/
noncomputable def pOf (theta : List ℝ) (i : ℕ) : ℝ :=
  ((rankOf theta i : ℝ) + 1) / ((theta.length : ℝ) + 1)

/-- Function `target_trophies(theta)` from the source:
`z = norm.ppf(p)`; `return TARGET_MEAN + TARGET_STD * z`, elementwise.
The external scipy function `norm.ppf` (inverse standard normal CDF) is
the parameter `ppf`; the development only ever assumes it strictly
monotone on (0,1). -/
noncomputable def target_trophies (ppf : ℝ → ℝ) (theta : List ℝ) : List ℝ :=
  (List.range theta.length).map (fun i => TARGET_MEAN + TARGET_STD * ppf (pOf theta i))

/-- Position `p = (rank + 1) / (N + 1)` from `target_trophies`, as a
function of the rank value itself, for statements that quantify over
every tie order the unstable sort may produce. -/
noncomputable def pos_of_rank (n rk : ℕ) : ℝ :=
  ((rk : ℝ) + 1) / ((n : ℝ) + 1)

/-- Target value `TARGET_MEAN + TARGET_STD * ppf(p)` from
`target_trophies`, as a function of the rank value itself. -/
noncomputable def target_of_rank (ppf : ℝ → ℝ) (n rk : ℕ) : ℝ :=
  TARGET_MEAN + TARGET_STD * ppf (pos_of_rank n rk)

/-- Characterization of every rank vector
`ranks = np.argsort(np.argsort(theta))` can produce, fixing no tie order:
NumPy's default quicksort is not stable, so the order among exactly equal
entries is unspecified, but any double argsort yields a permutation of
`0 .. N-1` — bounded by the population size and injective on it — that
strictly respects strict strength order. -/
def IsArgsortRank (theta : List ℝ) (r : ℕ → ℕ) : Prop :=
  (∀ k, k < theta.length → r k < theta.length) ∧
  (∀ k l, k < theta.length → l < theta.length → k ≠ l → r k ≠ r l) ∧
  (∀ k l, k < theta.length → l < theta.length →
    theta.getD k 0 < theta.getD l 0 → r k < r l)

/-- The weight vector built by `choose_opponent(i, theta)` before
normalization: `probs = np.exp(-0.5 * ((theta - theta[i]) / sigma) ** 2)`
followed by `probs[i] = 0.0`.  The global `SIGMA_MATCH` is the parameter
`sigma`. -/
noncomputable def match_probs (sigma : ℝ) (i : ℕ) (theta : List ℝ) : List ℝ :=
  (theta.map (fun t => Real.exp (-(0.5) * ((t - theta.getD i 0) / sigma) ^ 2))).set i 0

/-- The categorical distribution `choose_opponent(i, theta)` hands to
`rng.choice(len(theta), p=probs)` after `probs /= probs.sum()`: `none`
models the failure of the normalization when the weight sum is zero (the
division then produces NaN and `rng.choice` raises), and `some ps` is the
normalized probability vector from which the opponent index is drawn. -/
noncomputable def choose_opponent_dist (sigma : ℝ) (i : ℕ) (theta : List ℝ) :
    Option (List ℝ) :=
  let probs := match_probs sigma i theta
  if probs.sum = 0 then none else some (probs.map (fun p => p / probs.sum))

end RankingConcept

namespace RankingConcept

/-- C1: for every match processed, the latent-strength update of
`bt_update` is zero-sum between the two opponents: the change applied to
the first returned strength plus the change applied to the second is
exactly 0, for every pair of current strengths, every outcome value and
every step size. -/
theorem bt_update_zero_sum (a b outcome K : ℝ) :
    ((bt_update a b outcome K).1 - a) + ((bt_update a b outcome K).2 - b) = 0 := by
  simp [bt_update]

/-- C2: for every participant and every trophy step, regardless of the
configuration parameters (`wg`, `lp`, `fw`), the win/loss outcome and the
sign of the gap to target, the trophy score produced by `trophy_step` is
nonnegative. -/
theorem trophy_step_nonneg (wg lp fw target trophy : ℝ) (win : Bool) :
    0 ≤ trophy_step wg lp fw target trophy win := by
  unfold trophy_step
  exact le_max_left 0 _

/-- C4 (supporting theorem for the code-bug record): in exact real
arithmetic the raw-exponential probability the source computes,
`bt_p a b = exp(a)/(exp(a)+exp(b))`, coincides with the numerically
stable logistic form `1/(1+exp(b-a))` that the spec mandates — the two
formulas differ only in floating point, where the source's raw form
overflows for large `a` while the stable form cannot. -/
theorem bt_p_eq_stable_logistic (a b : ℝ) :
    bt_p a b = stable_logistic a b := by
  unfold bt_p stable_logistic
  have ha : Real.exp a ≠ 0 := (Real.exp_pos a).ne'
  have hs : Real.exp a + Real.exp b ≠ 0 := by positivity
  have h1 : 1 + Real.exp (b - a) ≠ 0 := by positivity
  rw [div_eq_div_iff hs h1]
  rw [Real.exp_sub]
  field_simp

/-- C6: for every estimator update with recorded winner `w` and loser `l`
(the simulation loop always calls `bt_update` with the winner first and
`outcome = 1`), the update computes `p_est = exp(s_w)/(exp(s_w)+exp(s_l))`
from the current strengths, sets `delta = step_size * (1 - p_est)`, adds
`delta` to the winner's latent strength and subtracts `delta` from the
loser's. -/
theorem bt_update_winner_formula (w l K : ℝ) :
    bt_update w l 1 K = bt_update_spec w l K := by
  unfold bt_update bt_update_spec bt_p
  simp

/-- C3 (counterexample): `choose_opponent` has no fallback-to-uniform
path.  At a concrete input on which the weight vector really is all-zero
(a population where only the chooser itself remains, so every weight is
zeroed), the normalization divides by a zero sum and the draw fails
(`none`); the function does not fall back to a uniform choice. -/
theorem choose_opponent_collapse_fails :
    match_probs SIGMA_MATCH 0 [(0:ℝ)] = [0] ∧
    choose_opponent_dist SIGMA_MATCH 0 [(0:ℝ)] = none := by
  constructor
  · simp [match_probs]
  · simp [choose_opponent_dist, match_probs]

/-- C3 (amended): in exact arithmetic the Gaussian weight of every
non-self participant is strictly positive, so with 2 participants and any
nonzero bandwidth the weight vector never collapses and `choose_opponent`
deterministically selects the only other participant: the categorical
distribution it draws from is exactly `[0, 1]` — by the normal
normalization path, not by any fallback. -/
theorem choose_opponent_two_participants (sigma a b : ℝ) (_hs : 0 < sigma) :
    choose_opponent_dist sigma 0 [a, b] = some [0, 1] := by
  have hw : (0:ℝ) < Real.exp (-(0.5) * ((b - a) / sigma) ^ 2) := Real.exp_pos _
  simp [choose_opponent_dist, match_probs, hw.ne', div_self hw.ne']

/-- C3 witness: the amended theorem at the configured bandwidth
`SIGMA_MATCH = 0.4` and the widely separated strengths `[0, 100]`. -/
theorem choose_opponent_two_participants_witness :
    (0:ℝ) < SIGMA_MATCH ∧
    choose_opponent_dist SIGMA_MATCH 0 [(0:ℝ), 100] = some [0, 1] :=
  ⟨by norm_num [SIGMA_MATCH],
   choose_opponent_two_participants SIGMA_MATCH 0 100 (by norm_num [SIGMA_MATCH])⟩

/-- Helper: `np.clip(x, 0, 1)` equals the spec's `clamp(x, 0, 1)` written
as `max 0 (min x 1)`. -/
theorem np_clip_eq_clamp (x : ℝ) : np_clip x 0 1 = max 0 (min x 1) := by
  unfold np_clip
  rw [max_min_distrib_left, max_comm (0:ℝ) x, max_eq_right (zero_le_one)]

/-- Helper: with a positive fade width, a participant at or above target
(`target ≤ trophy`) has `scale = 0`. -/
theorem trophy_scale_of_at_target (fw target trophy : ℝ) (hfw : 0 < fw)
    (h : target ≤ trophy) : trophy_scale fw target trophy = 0 := by
  unfold trophy_scale np_clip
  have hx : (target - trophy) / fw ≤ 0 :=
    div_nonpos_iff.mpr (Or.inr ⟨sub_nonpos.2 h, hfw.le⟩)
  rw [max_eq_right hx, min_eq_left zero_le_one]

/-- C5: for every trophy step, `trophy_step` computes exactly the spec's
formula — `gap = target - trophy`, `scale = clamp(gap / fw, 0, 1)`, add
`wg * scale` on a win and subtract `lp * scale` on a loss, clamp the
result at a zero floor — and the scale comes from the signed gap with no
absolute value: with a positive fade width, a participant at or above
target has `scale = 0`, so a win adds nothing. -/
theorem trophy_step_matches_spec (wg lp fw target trophy : ℝ) (win : Bool) :
    trophy_step wg lp fw target trophy win = trophy_step_spec wg lp fw target trophy win ∧
    (0 < fw → target ≤ trophy →
      trophy_scale fw target trophy = 0 ∧
      trophy_step wg lp fw target trophy true = max 0 trophy) := by
  refine ⟨?_, fun hfw h => ⟨trophy_scale_of_at_target fw target trophy hfw h, ?_⟩⟩
  · unfold trophy_step trophy_step_spec trophy_scale
    rw [np_clip_eq_clamp]
  · unfold trophy_step
    rw [trophy_scale_of_at_target fw target trophy hfw h]
    simp

/-- C5 witness: the spec equation and the zero-scale consequence at the
configured constants, with `trophy = 200` above its `target = 100`. -/
theorem trophy_step_matches_spec_witness :
    (0:ℝ) < 300 ∧ (100:ℝ) ≤ 200 ∧
    (trophy_step 35 25 300 100 200 true = trophy_step_spec 35 25 300 100 200 true ∧
      trophy_scale 300 100 200 = 0 ∧ trophy_step 35 25 300 100 200 true = max 0 200) :=
  ⟨by norm_num, by norm_num,
   (trophy_step_matches_spec 35 25 300 100 200 true).1,
   (trophy_step_matches_spec 35 25 300 100 200 true).2 (by norm_num) (by norm_num)⟩

/-- Helper: `ltSet` and `tieSet` are disjoint (an entry cannot be both
strictly below and exactly equal to entry `i`). -/
theorem ltSet_disjoint_tieSet (theta : List ℝ) (i : ℕ) :
    Disjoint (ltSet theta i) (tieSet theta i) := by
  rw [Finset.disjoint_left]
  intro k hk1 hk2
  rw [ltSet, Finset.mem_filter] at hk1
  rw [tieSet, Finset.mem_filter] at hk2
  exact absurd (hk2.2 ▸ hk1.2) (lt_irrefl _)

/-- Helper: `i` belongs to neither `ltSet theta i` nor `tieSet theta i`. -/
theorem self_not_mem_ltSet_tieSet (theta : List ℝ) (i : ℕ) :
    i ∉ ltSet theta i ∧ i ∉ tieSet theta i := by
  constructor
  · intro h
    rw [ltSet, Finset.mem_filter] at h
    exact absurd h.2 (lt_irrefl _)
  · intro h
    rw [tieSet, Finset.mem_filter] at h
    exact absurd (Finset.mem_range.mp h.1) (lt_irrefl i)

/-- Helper: each rank is strictly below the population size. -/
theorem rankOf_lt_length (theta : List ℝ) (i : ℕ) (hi : i < theta.length) :
    rankOf theta i < theta.length := by
  have hsub : ltSet theta i ∪ tieSet theta i ⊆ (Finset.range theta.length).erase i := by
    intro k hk
    rw [Finset.mem_union] at hk
    rw [Finset.mem_erase]
    rcases hk with h | h
    · rw [ltSet, Finset.mem_filter] at h
      refine ⟨fun he => absurd (he ▸ h.2) (lt_irrefl _), h.1⟩
    · rw [tieSet, Finset.mem_filter] at h
      have hki : k < i := Finset.mem_range.mp h.1
      exact ⟨Nat.ne_of_lt hki, Finset.mem_range.mpr (hki.trans hi)⟩
  have hcard : rankOf theta i ≤ theta.length - 1 := by
    calc rankOf theta i = (ltSet theta i ∪ tieSet theta i).card :=
          (Finset.card_union_of_disjoint (ltSet_disjoint_tieSet theta i)).symm
      _ ≤ ((Finset.range theta.length).erase i).card := Finset.card_le_card hsub
      _ = theta.length - 1 := by
          rw [Finset.card_erase_of_mem (Finset.mem_range.mpr hi), Finset.card_range]
  exact lt_of_le_of_lt hcard (Nat.sub_lt (Nat.pos_of_ne_zero (by omega)) one_pos)

/-- Helper: a strictly larger strength gets a strictly larger rank,
whatever happens on ties. -/
theorem rankOf_lt_of_strength_lt (theta : List ℝ) (i j : ℕ)
    (_hi : i < theta.length) (hj : j < theta.length)
    (hlt : theta.getD j 0 < theta.getD i 0) :
    rankOf theta j < rankOf theta i := by
  have hsub : insert j (ltSet theta j ∪ tieSet theta j) ⊆ ltSet theta i := by
    intro k hk
    rw [Finset.mem_insert, Finset.mem_union] at hk
    rw [ltSet, Finset.mem_filter]
    rcases hk with rfl | h | h
    · exact ⟨Finset.mem_range.mpr hj, hlt⟩
    · rw [ltSet, Finset.mem_filter] at h
      exact ⟨h.1, h.2.trans hlt⟩
    · rw [tieSet, Finset.mem_filter] at h
      have hkj : k < j := Finset.mem_range.mp h.1
      exact ⟨Finset.mem_range.mpr (hkj.trans hj), h.2 ▸ hlt⟩
  have hnotmem : j ∉ ltSet theta j ∪ tieSet theta j := by
    rw [Finset.mem_union]
    rintro (h | h)
    · exact (self_not_mem_ltSet_tieSet theta j).1 h
    · exact (self_not_mem_ltSet_tieSet theta j).2 h
  have hstep : rankOf theta j + 1 ≤ (ltSet theta i).card := by
    calc rankOf theta j + 1
        = (ltSet theta j ∪ tieSet theta j).card + 1 := by
          rw [rankOf, Finset.card_union_of_disjoint (ltSet_disjoint_tieSet theta j)]
      _ = (insert j (ltSet theta j ∪ tieSet theta j)).card :=
          (Finset.card_insert_of_not_mem hnotmem).symm
      _ ≤ (ltSet theta i).card := Finset.card_le_card hsub
  calc rankOf theta j < rankOf theta j + 1 := Nat.lt_succ_self _
    _ ≤ (ltSet theta i).card := hstep
    _ ≤ rankOf theta i := Nat.le_add_right _ _

/-- Helper: among exact ties, the earlier index gets the strictly smaller
rank (the stable tie split). -/
theorem rankOf_lt_of_tie (theta : List ℝ) (i j : ℕ) (hij : i < j)
    (_hj : j < theta.length) (heq : theta.getD i 0 = theta.getD j 0) :
    rankOf theta i < rankOf theta j := by
  have hlt_eq : ltSet theta i = ltSet theta j := by
    unfold ltSet
    rw [heq]
  have hsub : insert i (tieSet theta i) ⊆ tieSet theta j := by
    intro k hk
    rw [Finset.mem_insert] at hk
    rw [tieSet, Finset.mem_filter]
    rcases hk with rfl | h
    · exact ⟨Finset.mem_range.mpr hij, heq⟩
    · rw [tieSet, Finset.mem_filter] at h
      have hki : k < i := Finset.mem_range.mp h.1
      exact ⟨Finset.mem_range.mpr (hki.trans hij), h.2.trans heq⟩
  have hstep : (tieSet theta i).card + 1 ≤ (tieSet theta j).card := by
    calc (tieSet theta i).card + 1
        = (insert i (tieSet theta i)).card :=
          (Finset.card_insert_of_not_mem (self_not_mem_ltSet_tieSet theta i).2).symm
      _ ≤ (tieSet theta j).card := Finset.card_le_card hsub
  rw [rankOf, rankOf, hlt_eq]
  omega

/-- Helper: the fractional rank position is strictly positive. -/
theorem pOf_pos (theta : List ℝ) (i : ℕ) : 0 < pOf theta i := by
  unfold pOf
  positivity

/-- Helper: the fractional rank position is strictly below 1. -/
theorem pOf_lt_one (theta : List ℝ) (i : ℕ) (hi : i < theta.length) :
    pOf theta i < 1 := by
  have h := rankOf_lt_length theta i hi
  rw [pOf, div_lt_one (by positivity)]
  have hc : (rankOf theta i : ℝ) < (theta.length : ℝ) := Nat.cast_lt.mpr h
  linarith

/-- Helper: a strictly smaller rank gives a strictly smaller fractional
rank position. -/
theorem pOf_lt_of_rank_lt (theta : List ℝ) (i j : ℕ)
    (h : rankOf theta j < rankOf theta i) : pOf theta j < pOf theta i := by
  unfold pOf
  have hc : (rankOf theta j : ℝ) < (rankOf theta i : ℝ) := Nat.cast_lt.mpr h
  have hd : (0:ℝ) < (theta.length : ℝ) + 1 := by positivity
  exact (div_lt_div_iff_of_pos_right hd).mpr (by linarith)

/-- Helper: reading the target list at a valid index gives the
`mean + std * ppf(p)` formula. -/
theorem target_trophies_getD (ppf : ℝ → ℝ) (theta : List ℝ) (i : ℕ)
    (hi : i < theta.length) :
    (target_trophies ppf theta).getD i 0 =
      TARGET_MEAN + TARGET_STD * ppf (pOf theta i) := by
  unfold target_trophies
  have hlen : i < ((List.range theta.length).map
      (fun k => TARGET_MEAN + TARGET_STD * ppf (pOf theta k))).length := by
    simpa using hi
  rw [List.getD_eq_getElem _ _ hlen]
  simp

/-- C10: a participant whose current trophy score is at or above its
target (`gap <= 0`) is left exactly unchanged by one trophy step, whether
it won or lost: the clamped scale is 0, so both the win gain and the loss
penalty vanish, and the zero floor does not bite because trophy scores
are nonnegative. -/
theorem trophy_step_frame_at_or_above_target (wg lp fw target trophy : ℝ) (win : Bool)
    (hfw : 0 < fw) (ht : 0 ≤ trophy) (hge : target ≤ trophy) :
    trophy_step wg lp fw target trophy win = trophy := by
  unfold trophy_step
  rw [trophy_scale_of_at_target fw target trophy hfw hge]
  cases win <;> simp [max_eq_right ht]

/-- C10 witness: the frame property at the configured constants, with
`trophy = 200` above its `target = 100`, on a loss. -/
theorem trophy_step_frame_witness :
    (0:ℝ) < 300 ∧ (0:ℝ) ≤ 200 ∧ (100:ℝ) ≤ 200 ∧
    trophy_step 35 25 300 100 200 false = 200 :=
  ⟨by norm_num, by norm_num, by norm_num,
   trophy_step_frame_at_or_above_target 35 25 300 100 200 false
     (by norm_num) (by norm_num) (by norm_num)⟩

/-- C7: `compute_targets` is monotone — for any strength vector and any
two valid participant indices, a strictly greater latent strength gives a
weakly greater target trophy value, for every inverse-normal map `ppf`
strictly monotone on (0,1). -/
theorem compute_targets_monotone (ppf : ℝ → ℝ)
    (hppf : StrictMonoOn ppf (Set.Ioo (0:ℝ) 1)) (theta : List ℝ) (i j : ℕ)
    (hi : i < theta.length) (hj : j < theta.length)
    (hlt : theta.getD j 0 < theta.getD i 0) :
    (target_trophies ppf theta).getD j 0 ≤ (target_trophies ppf theta).getD i 0 := by
  rw [target_trophies_getD ppf theta j hj, target_trophies_getD ppf theta i hi]
  have hrank := rankOf_lt_of_strength_lt theta i j hi hj hlt
  have hp := pOf_lt_of_rank_lt theta i j hrank
  have hmj : pOf theta j ∈ Set.Ioo (0:ℝ) 1 := ⟨pOf_pos theta j, pOf_lt_one theta j hj⟩
  have hmi : pOf theta i ∈ Set.Ioo (0:ℝ) 1 := ⟨pOf_pos theta i, pOf_lt_one theta i hi⟩
  have hmul := mul_lt_mul_of_pos_left (hppf hmj hmi hp)
    (show (0:ℝ) < TARGET_STD by norm_num [TARGET_STD])
  linarith

/-- C7 witness: the monotonicity theorem applied to the identity map and
the strength vector `[0, 1]`, comparing participant 1 (stronger) with
participant 0. -/
theorem compute_targets_monotone_witness :
    StrictMonoOn (id : ℝ → ℝ) (Set.Ioo (0:ℝ) 1) ∧
    [(0:ℝ), 1].getD 0 0 < [(0:ℝ), 1].getD 1 0 ∧
    (target_trophies id [(0:ℝ), 1]).getD 0 0 ≤ (target_trophies id [(0:ℝ), 1]).getD 1 0 :=
  ⟨fun a _ b _ h => h, by simp,
   compute_targets_monotone id (fun a _ b _ h => h) [(0:ℝ), 1] 1 0
     (by simp) (by simp) (by simp)⟩

/-- C8: `compute_targets` assigns every valid participant the fractional
rank position `p = (rank + 1) / (N + 1)`, which lies strictly inside
(0,1), and returns `target = TARGET_MEAN + TARGET_STD * ppf p` where
`ppf` stands for the inverse standard normal CDF. -/
theorem compute_targets_formula (ppf : ℝ → ℝ) (theta : List ℝ) (i : ℕ)
    (hi : i < theta.length) :
    0 < pOf theta i ∧ pOf theta i < 1 ∧
    pOf theta i = ((rankOf theta i : ℝ) + 1) / ((theta.length : ℝ) + 1) ∧
    (target_trophies ppf theta).getD i 0 =
      TARGET_MEAN + TARGET_STD * ppf (pOf theta i) :=
  ⟨pOf_pos theta i, pOf_lt_one theta i hi, rfl, target_trophies_getD ppf theta i hi⟩

/-- C8 witness: the formula theorem at the one-participant strength
vector `[3]` with the identity in place of the inverse normal CDF. -/
theorem compute_targets_formula_witness :
    0 < [(3:ℝ)].length ∧
    (0 < pOf [(3:ℝ)] 0 ∧ pOf [(3:ℝ)] 0 < 1 ∧
     pOf [(3:ℝ)] 0 = ((rankOf [(3:ℝ)] 0 : ℝ) + 1) / (([(3:ℝ)].length : ℝ) + 1) ∧
     (target_trophies id [(3:ℝ)]).getD 0 0 =
       TARGET_MEAN + TARGET_STD * id (pOf [(3:ℝ)] 0)) :=
  ⟨by simp, compute_targets_formula id [(3:ℝ)] 0 (by simp)⟩

/-- Helper: the fractional position of a rank value is strictly
positive. -/
theorem pos_of_rank_pos (n rk : ℕ) : 0 < pos_of_rank n rk := by
  unfold pos_of_rank
  positivity

/-- Helper: the fractional position of a rank value inside the population
is strictly below 1. -/
theorem pos_of_rank_lt_one (n rk : ℕ) (h : rk < n) : pos_of_rank n rk < 1 := by
  rw [pos_of_rank, div_lt_one (by positivity)]
  have hc : (rk : ℝ) < (n : ℝ) := Nat.cast_lt.mpr h
  linarith

/-- Helper: the fractional position is strictly increasing in the rank
value. -/
theorem pos_of_rank_strict (n a b : ℕ) (h : a < b) :
    pos_of_rank n a < pos_of_rank n b := by
  unfold pos_of_rank
  have hc : (a : ℝ) < (b : ℝ) := Nat.cast_lt.mpr h
  have hd : (0:ℝ) < (n : ℝ) + 1 := by positivity
  exact (div_lt_div_iff_of_pos_right hd).mpr (by linarith)

/-- Helper: distinct rank values inside the population give distinct
targets, for any `ppf` strictly monotone on (0,1). -/
theorem target_of_rank_ne (ppf : ℝ → ℝ)
    (hppf : StrictMonoOn ppf (Set.Ioo (0:ℝ) 1)) (n a b : ℕ)
    (ha : a < n) (hb : b < n) (hne : a ≠ b) :
    target_of_rank ppf n a ≠ target_of_rank ppf n b := by
  have key : ∀ x y : ℕ, x < n → y < n → x < y →
      target_of_rank ppf n x < target_of_rank ppf n y := by
    intro x y hx hy hxy
    unfold target_of_rank
    have hmx : pos_of_rank n x ∈ Set.Ioo (0:ℝ) 1 :=
      ⟨pos_of_rank_pos n x, pos_of_rank_lt_one n x hx⟩
    have hmy : pos_of_rank n y ∈ Set.Ioo (0:ℝ) 1 :=
      ⟨pos_of_rank_pos n y, pos_of_rank_lt_one n y hy⟩
    have hmul := mul_lt_mul_of_pos_left (hppf hmx hmy (pos_of_rank_strict n x y hxy))
      (show (0:ℝ) < TARGET_STD by norm_num [TARGET_STD])
    linarith
  rcases hne.lt_or_lt with h | h
  · exact (key a b ha hb h).ne
  · exact (key b a hb ha h).ne'

/-- Helper: the deterministic `rankOf` is one of the rank vectors the
double argsort can produce, so `IsArgsortRank` is inhabited for every
strength vector. -/
theorem rankOf_isArgsortRank (theta : List ℝ) :
    IsArgsortRank theta (rankOf theta) := by
  refine ⟨fun k hk => rankOf_lt_length theta k hk, ?_, ?_⟩
  · intro k l hk hl hne
    rcases lt_trichotomy (theta.getD k 0) (theta.getD l 0) with h | h | h
    · exact (rankOf_lt_of_strength_lt theta l k hl hk h).ne
    · rcases hne.lt_or_lt with hkl | hlk
      · exact (rankOf_lt_of_tie theta k l hkl hl h).ne
      · exact (rankOf_lt_of_tie theta l k hlk hk h.symm).ne'
    · exact (rankOf_lt_of_strength_lt theta k l hk hl h).ne'
  · intro k l hk hl h
    exact rankOf_lt_of_strength_lt theta l k hl hk h

/-- C9 (counterexample): two exactly tied strengths `[0, 0]` refute the
claim: the double argsort gives the two tied participants distinct ranks,
and their target trophy values differ (shown with the strictly monotone
identity in place of `norm.ppf`: the fractional positions are 1/3 and
2/3) — not the equal midpoint-rank value the claim asserts. -/
theorem tied_participants_distinct_targets :
    [(0:ℝ), 0].getD 0 0 = [(0:ℝ), 0].getD 1 0 ∧
    rankOf [(0:ℝ), 0] 0 ≠ rankOf [(0:ℝ), 0] 1 ∧
    (target_trophies id [(0:ℝ), 0]).getD 0 0 ≠
      (target_trophies id [(0:ℝ), 0]).getD 1 0 := by
  have h0 : rankOf [(0:ℝ), 0] 0 = 0 := by
    simp [rankOf, ltSet, tieSet, Finset.range_succ, Finset.filter_insert,
      Finset.range_zero, Finset.filter_empty, Finset.filter_singleton]
  have h1 : rankOf [(0:ℝ), 0] 1 = 1 := by
    simp [rankOf, ltSet, tieSet, Finset.range_succ, Finset.filter_insert,
      Finset.range_zero, Finset.filter_empty, Finset.filter_singleton,
      Finset.range_one]
  refine ⟨by simp, ?_, ?_⟩
  · rw [h0, h1]
    omega
  · rw [target_trophies_getD id _ 0 (by simp), target_trophies_getD id _ 1 (by simp)]
    rw [pOf, pOf, h0, h1]
    norm_num [TARGET_MEAN, TARGET_STD]

/-- C9 (amended): exact ties do not receive a shared midpoint rank.  For
every rank vector the double argsort can produce — the default sort is
unstable, so the order among exact ties is unspecified — two exactly tied
participants receive distinct ranks, and therefore distinct (never
equal) target trophy values, for every `ppf` strictly monotone on
(0,1). -/
theorem tied_ranks_distinct (ppf : ℝ → ℝ)
    (hppf : StrictMonoOn ppf (Set.Ioo (0:ℝ) 1)) (theta : List ℝ) (r : ℕ → ℕ)
    (hr : IsArgsortRank theta r) (i j : ℕ)
    (hi : i < theta.length) (hj : j < theta.length) (hne : i ≠ j)
    (_heq : theta.getD i 0 = theta.getD j 0) :
    r i ≠ r j ∧
    target_of_rank ppf theta.length (r i) ≠ target_of_rank ppf theta.length (r j) :=
  ⟨hr.2.1 i j hi hj hne,
   target_of_rank_ne ppf hppf theta.length (r i) (r j) (hr.1 i hi) (hr.1 j hj)
     (hr.2.1 i j hi hj hne)⟩

/-- C9 witness: the amended theorem at the tied strength vector `[5, 5]`
with the identity map and the concrete rank vector `rankOf [5, 5]`. -/
theorem tied_ranks_distinct_witness :
    StrictMonoOn (id : ℝ → ℝ) (Set.Ioo (0:ℝ) 1) ∧
    IsArgsortRank [(5:ℝ), 5] (rankOf [(5:ℝ), 5]) ∧
    [(5:ℝ), 5].getD 0 0 = [(5:ℝ), 5].getD 1 0 ∧
    (rankOf [(5:ℝ), 5] 0 ≠ rankOf [(5:ℝ), 5] 1 ∧
     target_of_rank id [(5:ℝ), 5].length (rankOf [(5:ℝ), 5] 0) ≠
       target_of_rank id [(5:ℝ), 5].length (rankOf [(5:ℝ), 5] 1)) :=
  ⟨fun a _ b _ h => h, rankOf_isArgsortRank [(5:ℝ), 5], by simp,
   tied_ranks_distinct id (fun a _ b _ h => h) [(5:ℝ), 5] (rankOf [(5:ℝ), 5])
     (rankOf_isArgsortRank [(5:ℝ), 5]) 0 1 (by simp) (by simp) (by norm_num) (by simp)⟩

end RankingConcept
